import Mathlib

/-!
Shallow embedding of `yada.py` (Yada Bible Word Search Tool).

Strings are modelled as `List Char`; Python's `str.upper()` is modelled
per-character by `Char.toUpper` (the corpus and all character classes in the
source are ASCII: the source's regexes use `[A-Za-z]`, `\w`, `\d`, `\s`).
The unbounded `while` loops of `find_direct` / `find_reversed` are modelled
with an explicit fuel of `len(text) + 1`, which is shown sufficient for every
non-empty term (see the termination theorem); the degenerate empty-term case,
where Python's loop never advances, is analysed there as well.
-/

namespace Yada

abbrev Str := List Char

def upperStr (s : Str) : Str := s.map Char.toUpper

/-- Python `hay.find(needle, pos)` restricted to the suffix `suf = hay[pos:]`:
returns the smallest absolute index `i ≥ pos` at which `needle` occurs. -/
def findIn (needle : Str) : Str → Nat → Option Nat
  | [], pos => if needle.isPrefixOf [] then some pos else none
  | c :: rest, pos =>
    if needle.isPrefixOf (c :: rest) then some pos else findIn needle rest (pos + 1)

/-- Python `hay.find(needle, start)` (result `none` for `-1`). -/
def findFrom (hay needle : Str) (start : Nat) : Option Nat :=
  if start ≤ hay.length then findIn needle (hay.drop start) start else none

/-- The scan-and-advance loop shared by `find_direct` / `find_reversed`:
record `(idx, len(needle))`, resume at `idx + len(needle)`.  `fuel` bounds the
number of iterations (the Python loop is unbounded). -/
def findAllAux (hay needle : Str) : Nat → Nat → List (Nat × Nat)
  | _, 0 => []
  | idx, fuel + 1 =>
    match findFrom hay needle idx with
    | none => []
    | some i => (i, needle.length) :: findAllAux hay needle (i + needle.length) fuel

/-- `find_direct(text, term)` from yada.py. -/
def find_direct (text term : Str) : List (Nat × Nat) :=
  findAllAux (upperStr text) (upperStr term) 0 (text.length + 1)

/-- `find_reversed(text, term)` from yada.py: needle is `term.upper()[::-1]`. -/
def find_reversed (text term : Str) : List (Nat × Nat) :=
  findAllAux (upperStr text) ((upperStr term).reverse) 0 (text.length + 1)

/-! ### ELS matcher -/

/-- `re.findall('[A-Za-z]', text)` joined: the letters-only derived string. -/
def cleanedOf (text : Str) : Str := text.filter Char.isAlpha

structure ELSResult where
  skip : Nat
  positions : List Nat
  cleaned : Str
deriving DecidableEq

/-- `''.join(cu[start + i * skip] for i in range(length))`. -/
def elsSeq (cu : Str) (skip len start : Nat) : Str :=
  (List.range len).map (fun i => cu.getD (start + i * skip) ' ')

/-- `[start + i * skip for i in range(length)]`. -/
def elsPositions (skip len start : Nat) : List Nat :=
  (List.range len).map (fun i => start + i * skip)

/-- The inner `for start in range(n)` loop of `find_els`, for one `skip`.
`rem` counts the remaining iterations (`n - start`).  The bound check
`end >= n` uses integer arithmetic because Python's `length - 1` is `-1`
for an empty term. -/
def elsScanGo (cu tu cl : Str) (skip : Nat) : Nat → Nat → List ELSResult
  | _, 0 => []
  | start, rem + 1 =>
    if (cu.length : Int) ≤ (start : Int) + ((tu.length : Int) - 1) * (skip : Int) then []
    else if elsSeq cu skip tu.length start = tu then
      ⟨skip, elsPositions skip tu.length start, cl⟩ :: elsScanGo cu tu cl skip (start + 1) rem
    else elsScanGo cu tu cl skip (start + 1) rem

/-- `find_els(text, term, max_skip)` from yada.py. -/
def find_els_upto (text term : Str) (max_skip : Nat) : List ELSResult :=
  let cleaned := cleanedOf text
  let cu := upperStr cleaned
  let tu := upperStr term
  (List.range max_skip).flatMap (fun k => elsScanGo cu tu cleaned (k + 1) 0 cu.length)

/-- `find_els` at its default `max_skip = 50`. -/
def find_els (text term : Str) : List ELSResult := find_els_upto text term 50

/-! ### HTML escaping and the highlighter -/

def ampEnt : Str := ['&', 'a', 'm', 'p', ';']
def ltEnt : Str := ['&', 'l', 't', ';']
def gtEnt : Str := ['&', 'g', 't', ';']

/-- Python `s.replace(c, r)` for a single-character needle `c`. -/
def replaceChar (s : Str) (c : Char) (r : Str) : Str :=
  s.flatMap (fun x => if x = c then r else [x])

/-- `escape_html` from yada.py: the three sequential `replace` calls. -/
def escape_html (s : Str) : Str :=
  replaceChar (replaceChar (replaceChar s '&' ampEnt) '<' ltEnt) '>' gtEnt

/-- Per-character view of `escape_html` (the sequential replaces introduce no
new `<`, `>` and do not revisit already-inserted `&`; proved below). -/
def escChar (c : Char) : Str :=
  if c = '&' then ampEnt else if c = '<' then ltEnt else if c = '>' then gtEnt else [c]

/-- The opening `<span class="...">` marker inserted by `highlight_text`. -/
def openMarker (css : Str) : Str :=
  '<' :: 's' :: 'p' :: 'a' :: 'n' :: ' ' :: 'c' :: 'l' :: 'a' :: 's' :: 's' :: '=' :: '"' ::
    (css ++ ['"', '>'])

/-- The closing `</span>` marker. -/
def closeMarker : Str := ['<', '/', 's', 'p', 'a', 'n', '>']

/-- Python slice `text[a:b]` for natural `a ≤ b` (clipped like Python). -/
def slice (text : Str) (a b : Nat) : Str := (text.drop a).take (b - a)

/-- The `for start, length in sorted(matches, ...)` loop of `highlight_text`,
with `last` the running cursor; the trailing `parts.append(escape_html(text[last:]))`
is the base case. -/
def highlightLoop (text css : Str) : Nat → List (Nat × Nat) → Str
  | last, [] => escape_html (text.drop last)
  | last, (start, length) :: rest =>
    escape_html (slice text last start) ++
      (openMarker css ++ escape_html (slice text start (start + length)) ++ closeMarker) ++
      highlightLoop text css (start + length) rest

/-- `highlight_text(text, matches, css_class)` from yada.py (`ms` is the
`matches` argument).  Python's stable `sorted(matches, key=lambda x: x[0])` is
modelled by the stable `List.insertionSort` on the first components. -/
def highlight_text (text : Str) (ms : List (Nat × Nat)) (css : Str) : Str :=
  match ms with
  | [] => escape_html text
  | _ :: _ =>
    highlightLoop text css 0 (ms.insertionSort (fun a b => a.1 ≤ b.1))

/-! ### Verse parser -/

/-- Python's `\s` (ASCII range). -/
def isSpaceC (c : Char) : Bool :=
  c = ' ' ∨ c = '\t' ∨ c = '\n' ∨ c = '\x0b' ∨ c = '\x0c' ∨ c = '\r'

/-- Python's `\w` (ASCII range). -/
def isWordC (c : Char) : Bool := c.isAlphanum || c = '_'

/-- Python's `\d` (ASCII range). -/
def isDigitC (c : Char) : Bool := c.isDigit

structure Verse where
  book : Str
  chapter : Str
  verse : Str
  text : Str
deriving DecidableEq

/-- The part of the verse regex after group 1: `\s+(\d+):(\d+)\s+(.*)`.
All adjacent character classes are disjoint, so the greedy quantifiers need no
backtracking; returns `(chapter, verse, text)`. -/
def parseTail (s : Str) : Option (Str × Str × Str) :=
  let sp := s.takeWhile isSpaceC
  let s1 := s.dropWhile isSpaceC
  if sp = [] then none else
  let ch := s1.takeWhile isDigitC
  let s2 := s1.dropWhile isDigitC
  if ch = [] then none else
  match s2 with
  | ':' :: s3 =>
    let vs := s3.takeWhile isDigitC
    let s4 := s3.dropWhile isDigitC
    if vs = [] then none else
    let sp2 := s4.takeWhile isSpaceC
    let s5 := s4.dropWhile isSpaceC
    if sp2 = [] then none else some (ch, vs, s5)
  | _ => none

/-- Matching `\s*\w+` (the rest of group 1) at `s`, where `pre` is the part of
group 1 already consumed by `[1-3]?`; `\s ∩ \w = ∅` and `\w` followed by `\s+`
leave the greedy quantifiers no room to backtrack. -/
def parseBookFrom (pre s : Str) : Option Verse :=
  let sp := s.takeWhile isSpaceC
  let s1 := s.dropWhile isSpaceC
  let w := s1.takeWhile isWordC
  let s2 := s1.dropWhile isWordC
  if w = [] then none else
  match parseTail s2 with
  | some (ch, vs, tx) => some ⟨pre ++ sp ++ w, ch, vs, tx⟩
  | none => none

/-- `re.match(r'^([1-3]?\s*\w+)\s+(\d+):(\d+)\s+(.*)', line)`: the only choice
point of the regex is the optional `[1-3]?`, tried greedily first and dropped
on failure. -/
def parseLine (line : Str) : Option Verse :=
  match line with
  | [] => none
  | c :: rest =>
    if c = '1' ∨ c = '2' ∨ c = '3' then
      match parseBookFrom [c] rest with
      | some v => some v
      | none => parseBookFrom [] line
    else parseBookFrom [] line

/-- The `for line in f` accumulation loop of `load_bible`. -/
def load_bible_loop (verses : List Verse) : List Str → List Verse
  | [] => verses
  | line :: rest =>
    match parseLine line with
    | some v => load_bible_loop (verses ++ [v]) rest
    | none => load_bible_loop verses rest

/-- `load_bible` from yada.py, on an already-split list of lines. -/
def load_bible (lines : List Str) : List Verse := load_bible_loop [] lines

/-- Decimal value of a digit string (for stating the chapter/verse claims). -/
def natOfDigits (s : Str) : Nat :=
  s.foldl (fun a c => 10 * a + (c.toNat - '0'.toNat)) 0

/-! ### Report assembler (`generate_html`) -/

def natStr (n : Nat) : Str := (Nat.repr n).toList

/-- `f"{v['book']} {v['chapter']}:{v['verse']}"`. -/
def locOf (v : Verse) : Str := v.book ++ [' '] ++ v.chapter ++ [':'] ++ v.verse

def direct_count (verses : List Verse) (term : Str) : Nat :=
  (verses.map (fun v => (find_direct v.text term).length)).sum

def reverse_count (verses : List Verse) (term : Str) : Nat :=
  (verses.map (fun v => (find_reversed v.text term).length)).sum

def els_count (verses : List Verse) (term : Str) : Nat :=
  (verses.map (fun v => (find_els v.text term).length)).sum

/-- The two lines emitted per verse with direct matches. -/
def convBlock (term : Str) (v : Verse) : List Str :=
  let dm := find_direct v.text term
  if dm = [] then []
  else
    [ "<h3>".toList ++ locOf v ++ "</h3>".toList,
      "<p>".toList ++ highlight_text v.text dm ("highlight-direct".toList) ++ "</p>".toList ]

/-- The two lines emitted per verse with reversed matches. -/
def revBlock (term : Str) (v : Verse) : List Str :=
  let rm := find_reversed v.text term
  if rm = [] then []
  else
    [ "<h3>".toList ++ locOf v ++ "</h3>".toList,
      "<p>".toList ++ highlight_text v.text rm ("highlight-reverse".toList) ++ "</p>".toList ]

/-- The lines emitted for a verse's ELS results: one `<h3>`/`<p>` pair per
result (`if els:` followed by `for m in els:` is a plain concatenation over
the result list). -/
def elsBlock (term : Str) (v : Verse) : List Str :=
  (find_els v.text term).flatMap (fun m =>
    [ "<h3>".toList ++ locOf v ++ " (skip=".toList ++ natStr m.skip ++ ")</h3>".toList,
      "<p>".toList ++
        highlight_text m.cleaned (m.positions.map (fun p => (p, 1))) ("highlight-els".toList) ++
        "</p>".toList ])

/-- The list of lines appended to `html` in `generate_html` (the function's
result is their `'\n'`-join).  CSS braces are written `\x7b`/`\x7d`. -/
def generate_html_lines (verses : List Verse) (term : Str) : List Str :=
  [ "<!DOCTYPE html>".toList,
    "<html lang=\"en\">".toList,
    "<head>".toList,
    "  <meta charset=\"UTF-8\">".toList,
    "  <title>Yada Bible Word Search Report for \"".toList ++ term ++ "\"</title>".toList,
    "  <style>".toList,
    "    body \x7b font-family: sans-serif; white-space: pre-wrap; \x7d".toList,
    "    .highlight-direct \x7b background: yellow; \x7d".toList,
    "    .highlight-reverse \x7b background: cyan; \x7d".toList,
    "    .highlight-els \x7b background: magenta; \x7d".toList,
    "    nav \x7b margin-bottom: 1em; \x7d".toList,
    "    nav a \x7b margin-right: 1em; text-decoration: none; \x7d".toList,
    "    h1, h2, h3 \x7b margin-top: 1em; \x7d".toList,
    "  </style>".toList,
    "</head>".toList,
    "<body>".toList,
    "<h1>Search Term: ".toList ++ term ++ "</h1>".toList,
    "<nav>".toList,
    "<a href=\"#conventional\">Conventional Matches (".toList ++ natStr (direct_count verses term) ++
      ")</a> | <a href=\"#reversed\">Reversed Matches (".toList ++ natStr (reverse_count verses term) ++
      ")</a> | <a href=\"#els\">Equidistant Matches (".toList ++ natStr (els_count verses term) ++
      ")</a>".toList,
    "</nav>".toList,
    "<h2 id=\"conventional\">Conventional Matches</h2>".toList ] ++
  verses.flatMap (convBlock term) ++
  [ "<h2 id=\"reversed\">Reversed Matches</h2>".toList ] ++
  verses.flatMap (revBlock term) ++
  [ "<h2 id=\"els\">Equidistant Letter Sequences (ELS)</h2>".toList ] ++
  verses.flatMap (elsBlock term) ++
  [ "</body>".toList, "</html>".toList ]

/-- `generate_html(verses, term)`: `'\n'.join(html)`. -/
def generate_html (verses : List Verse) (term : Str) : Str :=
  List.intercalate ['\n'] (generate_html_lines verses term)

/-! ### The strip / un-escape operations of the highlighter round-trip claim -/

/-- Greedy left-to-right un-escaping of the `&amp;` / `&lt;` / `&gt;`
entities, fuel-based so that it is kernel-computable (`unescape` supplies
sufficient fuel: every step consumes at least one character). -/
def unescapeGo : Nat → Str → Str
  | 0, s => s
  | _ + 1, [] => []
  | fuel + 1, c :: rest =>
    if ampEnt.isPrefixOf (c :: rest) then '&' :: unescapeGo fuel (rest.drop 4)
    else if ltEnt.isPrefixOf (c :: rest) then '<' :: unescapeGo fuel (rest.drop 3)
    else if gtEnt.isPrefixOf (c :: rest) then '>' :: unescapeGo fuel (rest.drop 3)
    else c :: unescapeGo fuel rest

def unescape (s : Str) : Str := unescapeGo s.length s

/-- Removal of every occurrence of `pat`, scanning left to right (fuel-based
for kernel computability; `removeAll` supplies sufficient fuel). -/
def removeAllGo (pat : Str) : Nat → Str → Str
  | 0, s => s
  | _ + 1, [] => []
  | fuel + 1, c :: rest =>
    if pat.isPrefixOf (c :: rest) ∧ pat ≠ [] then
      removeAllGo pat fuel (rest.drop (pat.length - 1))
    else c :: removeAllGo pat fuel rest

def removeAll (pat s : Str) : Str := removeAllGo pat s.length s

theorem unescapeGo_stable :
    ∀ (f₁ f₂ : Nat) (s : Str), s.length ≤ f₁ → s.length ≤ f₂ →
      unescapeGo f₁ s = unescapeGo f₂ s
  | 0, f₂, s, h₁, _ => by
    have hs : s = [] := List.length_eq_zero.mp (Nat.le_zero.mp h₁)
    subst hs
    cases f₂ <;> rfl
  | f + 1, 0, s, _, h₂ => by
    have hs : s = [] := List.length_eq_zero.mp (Nat.le_zero.mp h₂)
    subst hs
    rfl
  | _ + 1, _ + 1, [], _, _ => rfl
  | f + 1, g + 1, c :: rest, h₁, h₂ => by
    rw [unescapeGo, unescapeGo]
    have hr : rest.length ≤ f := by simp at h₁; omega
    have hg : rest.length ≤ g := by simp at h₂; omega
    split
    · exact congrArg _ (unescapeGo_stable f g _ (by simp; omega) (by simp; omega))
    · split
      · exact congrArg _ (unescapeGo_stable f g _ (by simp; omega) (by simp; omega))
      · split
        · exact congrArg _ (unescapeGo_stable f g _ (by simp; omega) (by simp; omega))
        · exact congrArg _ (unescapeGo_stable f g rest hr hg)

theorem unescape_cons (c : Char) (rest : Str) :
    unescape (c :: rest) =
      if ampEnt.isPrefixOf (c :: rest) then '&' :: unescape (rest.drop 4)
      else if ltEnt.isPrefixOf (c :: rest) then '<' :: unescape (rest.drop 3)
      else if gtEnt.isPrefixOf (c :: rest) then '>' :: unescape (rest.drop 3)
      else c :: unescape rest := by
  rw [unescape, List.length_cons, unescapeGo]
  split
  · exact congrArg _ (unescapeGo_stable _ _ _ (by simp) (le_refl _))
  · split
    · exact congrArg _ (unescapeGo_stable _ _ _ (by simp) (le_refl _))
    · split
      · exact congrArg _ (unescapeGo_stable _ _ _ (by simp) (le_refl _))
      · rfl

theorem removeAllGo_stable (pat : Str) :
    ∀ (f₁ f₂ : Nat) (s : Str), s.length ≤ f₁ → s.length ≤ f₂ →
      removeAllGo pat f₁ s = removeAllGo pat f₂ s
  | 0, f₂, s, h₁, _ => by
    have hs : s = [] := List.length_eq_zero.mp (Nat.le_zero.mp h₁)
    subst hs
    cases f₂ <;> rfl
  | f + 1, 0, s, _, h₂ => by
    have hs : s = [] := List.length_eq_zero.mp (Nat.le_zero.mp h₂)
    subst hs
    rfl
  | _ + 1, _ + 1, [], _, _ => rfl
  | f + 1, g + 1, c :: rest, h₁, h₂ => by
    rw [removeAllGo, removeAllGo]
    have hr : rest.length ≤ f := by simp at h₁; omega
    have hg : rest.length ≤ g := by simp at h₂; omega
    split
    · exact removeAllGo_stable pat f g _ (by simp; omega) (by simp; omega)
    · exact congrArg _ (removeAllGo_stable pat f g rest hr hg)

theorem removeAll_cons (pat : Str) (c : Char) (rest : Str) :
    removeAll pat (c :: rest) =
      if pat.isPrefixOf (c :: rest) ∧ pat ≠ [] then
        removeAll pat (rest.drop (pat.length - 1))
      else c :: removeAll pat rest := by
  rw [removeAll, List.length_cons, removeAllGo]
  split
  · exact removeAllGo_stable pat _ _ _ (by simp) (le_refl _)
  · rfl

/-! ### Escape / un-escape round trip -/

theorem escape_html_flatMap (s : Str) : s.flatMap escChar = escape_html s := by
  induction s with
  | nil => rfl
  | cons c rest ih =>
    rw [List.flatMap_cons, ih]
    by_cases h1 : c = '&'
    · subst h1
      simp [escape_html, replaceChar, escChar, ampEnt]
    · by_cases h2 : c = '<'
      · subst h2
        simp [escape_html, replaceChar, escChar, ltEnt]
      · by_cases h3 : c = '>'
        · subst h3
          simp [escape_html, replaceChar, escChar, gtEnt]
        · simp [escape_html, replaceChar, escChar, h1, h2, h3]

theorem not_lt_mem_escChar (c : Char) : '<' ∉ escChar c := by
  rw [escChar]
  split
  · decide
  · split
    · decide
    · split
      · decide
      · rename_i h1 h2 h3
        simp only [List.mem_singleton]
        intro h
        exact h2 h.symm

theorem not_lt_escape (s : Str) : '<' ∉ escape_html s := by
  rw [← escape_html_flatMap]
  intro h
  obtain ⟨c, -, hc⟩ := List.mem_flatMap.mp h
  exact not_lt_mem_escChar c hc

theorem escape_html_append (a b : Str) :
    escape_html (a ++ b) = escape_html a ++ escape_html b := by
  rw [← escape_html_flatMap, ← escape_html_flatMap, ← escape_html_flatMap,
    List.flatMap_append]

theorem prefixOf_head_ne {a b : Char} (p X : Str) (h : a ≠ b) :
    (a :: p).isPrefixOf (b :: X) = false := by
  rw [Bool.eq_false_iff]
  intro hpre
  have hp := List.isPrefixOf_iff_prefix.mp hpre
  rw [List.cons_prefix_cons] at hp
  exact h hp.1

theorem prefixOf_head2_ne {a b x y : Char} (p X : Str) (h : b ≠ y) :
    (a :: b :: p).isPrefixOf (x :: y :: X) = false := by
  rw [Bool.eq_false_iff]
  intro hpre
  have hp := List.isPrefixOf_iff_prefix.mp hpre
  rw [List.cons_prefix_cons] at hp
  obtain ⟨-, hp⟩ := hp
  rw [List.cons_prefix_cons] at hp
  exact h hp.1

theorem unescape_escape_append (s : Str) :
    ∀ t : Str, unescape (escape_html s ++ t) = s ++ unescape t := by
  induction s with
  | nil =>
    intro t
    rw [show escape_html [] = [] from rfl]
    simp
  | cons c rest ih =>
    intro t
    rw [← escape_html_flatMap, List.flatMap_cons, escape_html_flatMap]
    by_cases h1 : c = '&'
    · subst h1
      rw [show escChar '&' = ampEnt from rfl]
      rw [show ampEnt ++ escape_html rest ++ t =
        '&' :: ('a' :: 'm' :: 'p' :: ';' :: (escape_html rest ++ t)) from by simp [ampEnt]]
      rw [unescape_cons,
        show ampEnt.isPrefixOf ('&' :: 'a' :: 'm' :: 'p' :: ';' :: (escape_html rest ++ t)) =
          true from List.isPrefixOf_iff_prefix.mpr ⟨_, rfl⟩,
        if_pos rfl]
      rw [show ('a' :: 'm' :: 'p' :: ';' :: (escape_html rest ++ t)).drop 4 =
        escape_html rest ++ t from rfl]
      rw [ih t, List.cons_append]
    · by_cases h2 : c = '<'
      · subst h2
        rw [show escChar '<' = ltEnt from rfl]
        rw [show ltEnt ++ escape_html rest ++ t =
          '&' :: ('l' :: 't' :: ';' :: (escape_html rest ++ t)) from by simp [ltEnt]]
        rw [unescape_cons,
          show ampEnt.isPrefixOf ('&' :: 'l' :: 't' :: ';' :: (escape_html rest ++ t)) =
            false from prefixOf_head2_ne _ _ (by decide),
          show ltEnt.isPrefixOf ('&' :: 'l' :: 't' :: ';' :: (escape_html rest ++ t)) =
            true from List.isPrefixOf_iff_prefix.mpr ⟨_, rfl⟩,
          if_neg (by simp), if_pos rfl]
        rw [show ('l' :: 't' :: ';' :: (escape_html rest ++ t)).drop 3 =
          escape_html rest ++ t from rfl]
        rw [ih t, List.cons_append]
      · by_cases h3 : c = '>'
        · subst h3
          rw [show escChar '>' = gtEnt from rfl]
          rw [show gtEnt ++ escape_html rest ++ t =
            '&' :: ('g' :: 't' :: ';' :: (escape_html rest ++ t)) from by simp [gtEnt]]
          rw [unescape_cons,
            show ampEnt.isPrefixOf ('&' :: 'g' :: 't' :: ';' :: (escape_html rest ++ t)) =
              false from prefixOf_head2_ne _ _ (by decide),
            show ltEnt.isPrefixOf ('&' :: 'g' :: 't' :: ';' :: (escape_html rest ++ t)) =
              false from prefixOf_head2_ne _ _ (by decide),
            show gtEnt.isPrefixOf ('&' :: 'g' :: 't' :: ';' :: (escape_html rest ++ t)) =
              true from List.isPrefixOf_iff_prefix.mpr ⟨_, rfl⟩,
            if_neg (by simp), if_neg (by simp), if_pos rfl]
          rw [show ('g' :: 't' :: ';' :: (escape_html rest ++ t)).drop 3 =
            escape_html rest ++ t from rfl]
          rw [ih t, List.cons_append]
        · have hc : ('&' : Char) ≠ c := fun he => h1 he.symm
          rw [show escChar c = [c] from by simp [escChar, h1, h2, h3]]
          rw [List.singleton_append, List.cons_append, unescape_cons,
            show ampEnt.isPrefixOf (c :: (escape_html rest ++ t)) = false from
              prefixOf_head_ne _ _ hc,
            show ltEnt.isPrefixOf (c :: (escape_html rest ++ t)) = false from
              prefixOf_head_ne _ _ hc,
            show gtEnt.isPrefixOf (c :: (escape_html rest ++ t)) = false from
              prefixOf_head_ne _ _ hc,
            if_neg (by simp), if_neg (by simp), if_neg (by simp)]
          rw [ih t, List.cons_append]

theorem unescape_escape (s : Str) : unescape (escape_html s) = s := by
  have h := unescape_escape_append s []
  simpa [unescape, unescapeGo] using h

/-! ### Marker removal lemmas -/

theorem removeAll_append_not_head (hd : Char) (pt : Str) :
    ∀ (x y : Str), hd ∉ x →
      removeAll (hd :: pt) (x ++ y) = x ++ removeAll (hd :: pt) y := by
  intro x
  induction x with
  | nil => intro y _; simp
  | cons c xs ih =>
    intro y hx
    have hcond : ¬((hd :: pt).isPrefixOf (c :: (xs ++ y)) ∧ hd :: pt ≠ []) := by
      rintro ⟨hpre, -⟩
      have h := List.isPrefixOf_iff_prefix.mp hpre
      rw [List.cons_prefix_cons] at h
      exact hx (by simp [h.1])
    rw [List.cons_append, removeAll_cons, if_neg hcond,
      ih y (fun h => hx (List.mem_cons_of_mem _ h))]
    rfl

theorem removeAll_eat {pat : Str} (hne : pat ≠ []) (y : Str) :
    removeAll pat (pat ++ y) = removeAll pat y := by
  cases pat with
  | nil => exact absurd rfl hne
  | cons hd pt =>
    rw [List.cons_append, removeAll_cons, if_pos]
    · rw [show (hd :: pt).length - 1 = pt.length from by simp, List.drop_left]
    · exact ⟨List.isPrefixOf_iff_prefix.mpr ⟨y, by simp⟩, by simp⟩

theorem removeAll_no_lt {pt x : Str} (hx : '<' ∉ x) : removeAll ('<' :: pt) x = x := by
  have h := removeAll_append_not_head '<' pt x [] hx
  simpa [removeAll, removeAllGo] using h

theorem removeAll_open_not_head (css : Str) {x : Str} (hx : '<' ∉ x) (y : Str) :
    removeAll (openMarker css) (x ++ y) = x ++ removeAll (openMarker css) y :=
  removeAll_append_not_head '<' _ x y hx

theorem removeAll_open_escape (css s : Str) :
    removeAll (openMarker css) (escape_html s) = escape_html s :=
  removeAll_no_lt (not_lt_escape s)

theorem removeAll_close_not_head {x : Str} (hx : '<' ∉ x) (y : Str) :
    removeAll closeMarker (x ++ y) = x ++ removeAll closeMarker y :=
  removeAll_append_not_head '<' _ x y hx

theorem removeAll_close_escape (s : Str) :
    removeAll closeMarker (escape_html s) = escape_html s :=
  removeAll_no_lt (not_lt_escape s)

theorem removeAll_open_close (css t : Str) :
    removeAll (openMarker css) (closeMarker ++ t) =
      closeMarker ++ removeAll (openMarker css) t := by
  rw [show closeMarker ++ t = '<' :: (['/', 's', 'p', 'a', 'n', '>'] ++ t) from rfl]
  rw [show openMarker css =
    '<' :: ('s' :: 'p' :: 'a' :: 'n' :: ' ' :: 'c' :: 'l' :: 'a' :: 's' :: 's' :: '=' :: '"' ::
      (css ++ ['"', '>'])) from rfl]
  rw [removeAll_cons, if_neg]
  · rw [removeAll_append_not_head '<' _ ['/', 's', 'p', 'a', 'n', '>'] t (by decide)]
    rfl
  · rintro ⟨hpre, -⟩
    have h := List.isPrefixOf_iff_prefix.mp hpre
    rw [List.cons_prefix_cons] at h
    obtain ⟨-, h⟩ := h
    rw [show (['/', 's', 'p', 'a', 'n', '>'] : Str) ++ t =
      '/' :: (['s', 'p', 'a', 'n', '>'] ++ t) from rfl] at h
    rw [List.cons_prefix_cons] at h
    exact absurd h.1 (by decide)

/-! ### The highlighter round trip -/

/-- `highlightLoop` with the opening markers removed. -/
def hlStage1 (text : Str) : Nat → List (Nat × Nat) → Str
  | last, [] => escape_html (text.drop last)
  | last, (s, l) :: rest =>
    escape_html (slice text last s) ++ escape_html (slice text s (s + l)) ++ closeMarker ++
      hlStage1 text (s + l) rest

/-- `highlightLoop` with both markers removed. -/
def hlStage2 (text : Str) : Nat → List (Nat × Nat) → Str
  | last, [] => escape_html (text.drop last)
  | last, (s, l) :: rest =>
    escape_html (slice text last s) ++ escape_html (slice text s (s + l)) ++
      hlStage2 text (s + l) rest

/-- The cursor `last` never runs past the next interval's start. -/
def Chained : Nat → List (Nat × Nat) → Prop
  | _, [] => True
  | last, (s, l) :: rest => last ≤ s ∧ Chained (s + l) rest

/-- Non-overlap of two intervals, in either order. -/
def nonOverlap (a b : Nat × Nat) : Prop := a.1 + a.2 ≤ b.1 ∨ b.1 + b.2 ≤ a.1

theorem removeOpen_highlightLoop (text css : Str) :
    ∀ (ms : List (Nat × Nat)) (last : Nat),
      removeAll (openMarker css) (highlightLoop text css last ms) = hlStage1 text last ms := by
  intro ms
  induction ms with
  | nil =>
    intro last
    rw [highlightLoop, hlStage1]
    exact removeAll_open_escape css _
  | cons hd rest ih =>
    intro last
    obtain ⟨s, l⟩ := hd
    rw [highlightLoop, hlStage1]
    simp only [List.append_assoc]
    rw [removeAll_open_not_head css (not_lt_escape _),
      removeAll_eat (by simp [openMarker]),
      removeAll_open_not_head css (not_lt_escape _),
      removeAll_open_close, ih (s + l)]

theorem removeClose_hlStage1 (text : Str) :
    ∀ (ms : List (Nat × Nat)) (last : Nat),
      removeAll closeMarker (hlStage1 text last ms) = hlStage2 text last ms := by
  intro ms
  induction ms with
  | nil =>
    intro last
    rw [hlStage1, hlStage2]
    exact removeAll_close_escape _
  | cons hd rest ih =>
    intro last
    obtain ⟨s, l⟩ := hd
    rw [hlStage1, hlStage2]
    simp only [List.append_assoc]
    rw [removeAll_close_not_head (not_lt_escape _),
      removeAll_close_not_head (not_lt_escape _),
      removeAll_eat (by simp [closeMarker]), ih (s + l)]

theorem unescape_hlStage2 (text : Str) :
    ∀ (ms : List (Nat × Nat)) (last : Nat), Chained last ms →
      unescape (hlStage2 text last ms) = text.drop last := by
  intro ms
  induction ms with
  | nil =>
    intro last _
    rw [hlStage2]
    exact unescape_escape _
  | cons hd rest ih =>
    intro last hch
    obtain ⟨s, l⟩ := hd
    obtain ⟨hls, hch'⟩ := hch
    rw [hlStage2]
    simp only [List.append_assoc]
    rw [unescape_escape_append, unescape_escape_append, ih (s + l) hch']
    have h1 : slice text s (s + l) ++ text.drop (s + l) = text.drop s := by
      rw [slice, show s + l - s = l from by omega]
      have hd : text.drop (s + l) = (text.drop s).drop l := by
        rw [List.drop_drop, Nat.add_comm]
      rw [hd, List.take_append_drop]
    have h2 : slice text last s ++ text.drop s = text.drop last := by
      rw [slice]
      have hd : text.drop s = (text.drop last).drop (s - last) := by
        rw [List.drop_drop]
        congr 1
        omega
      rw [hd, List.take_append_drop]
    rw [h1, h2]

theorem chained_of_pairwise :
    ∀ (l : List (Nat × Nat)) (last : Nat),
      (∀ m ∈ l, 0 < m.2) →
      l.Pairwise (fun a b => a.1 ≤ b.1) →
      l.Pairwise nonOverlap →
      (∀ m ∈ l, last ≤ m.1) →
      Chained last l := by
  intro l
  induction l with
  | nil => intro last _ _ _ _; trivial
  | cons a t ih =>
    intro last hpos hsort hsep hlb
    refine ⟨hlb a (List.mem_cons_self _ _), ?_⟩
    have hs : a.1 + a.2 = a.1 + a.2 := rfl
    obtain ⟨s, len⟩ := a
    refine ih (s + len) (fun m hm => hpos m (List.mem_cons_of_mem _ hm))
      (List.Pairwise.sublist (List.sublist_cons_self _ _) hsort)
      (List.Pairwise.sublist (List.sublist_cons_self _ _) hsep) ?_
    intro m hm
    have h1 : s ≤ m.1 := (List.pairwise_cons.mp hsort).1 m hm
    have h2 : nonOverlap (s, len) m := (List.pairwise_cons.mp hsep).1 m hm
    have h3 : 0 < m.2 := hpos m (List.mem_cons_of_mem _ hm)
    rcases h2 with h2 | h2
    · simpa using h2
    · simp only at h2
      omega

/-- C4.  Highlighter round trip: for every reference string, style class and
list of in-bounds, positive-length, pairwise non-overlapping match intervals,
stripping first the inserted `<span class="...">` markers and then the
`</span>` markers from the highlighter's output and un-escaping the
`&amp;`/`&lt;`/`&gt;` entities reproduces the original reference string
exactly.  (Escaped segments contain no `<`, so the only marker-shaped
substrings in the output are the inserted markers themselves.) -/
theorem highlight_roundtrip (text css : Str) (ms : List (Nat × Nat))
    (hpos : ∀ m ∈ ms, 0 < m.2)
    (hbound : ∀ m ∈ ms, m.1 + m.2 ≤ text.length)
    (hsep : ms.Pairwise nonOverlap) :
    unescape (removeAll closeMarker
      (removeAll (openMarker css) (highlight_text text ms css))) = text := by
  cases ms with
  | nil =>
    simp only [highlight_text]
    rw [removeAll_open_escape, removeAll_close_escape]
    exact unescape_escape text
  | cons m₀ mt =>
    simp only [highlight_text]
    rw [removeOpen_highlightLoop, removeClose_hlStage1]
    have hperm : List.Perm ((m₀ :: mt).insertionSort (fun a b => a.1 ≤ b.1)) (m₀ :: mt) :=
      List.perm_insertionSort _ _
    have hpos' : ∀ m, m ∈ (m₀ :: mt).insertionSort (fun a b => a.1 ≤ b.1) → 0 < m.2 :=
      fun m hm => hpos m (hperm.mem_iff.mp hm)
    have hsep' : ((m₀ :: mt).insertionSort (fun a b => a.1 ≤ b.1)).Pairwise nonOverlap := by
      refine (List.Perm.pairwise_iff ?_ hperm).mpr hsep
      intro a b h
      exact Or.elim h Or.inr Or.inl
    have hsort : ((m₀ :: mt).insertionSort
        (fun a b => a.1 ≤ b.1)).Pairwise (fun a b => a.1 ≤ b.1) := by
      haveI ht : IsTotal (Nat × Nat) (fun a b => a.1 ≤ b.1) :=
        ⟨fun a b => Nat.le_total a.1 b.1⟩
      haveI htr : IsTrans (Nat × Nat) (fun a b => a.1 ≤ b.1) :=
        ⟨fun a b c h1 h2 => Nat.le_trans h1 h2⟩
      exact List.sorted_insertionSort _ _
    rw [unescape_hlStage2 text _ 0
      (chained_of_pairwise _ 0 hpos' hsort hsep' (fun m _ => Nat.zero_le _))]
    exact List.drop_zero text

/-- C4 witness. -/
theorem highlight_roundtrip_witness :
    unescape (removeAll closeMarker (removeAll (openMarker ['c'])
      (highlight_text ['a', '&', 'b'] [(1, 1)] ['c']))) = ['a', '&', 'b'] :=
  highlight_roundtrip ['a', '&', 'b'] ['c'] [(1, 1)]
    (by decide) (by decide) (by simp)

/-! ### Lemmas about the scan-and-advance matchers -/

theorem findIn_spec (needle : Str) (suf : Str) :
    ∀ (pos i : Nat), findIn needle suf pos = some i →
      pos ≤ i ∧ i - pos ≤ suf.length ∧ needle.isPrefixOf (suf.drop (i - pos)) := by
  induction suf with
  | nil =>
    intro pos i h
    rw [findIn] at h
    split at h
    · cases h
      simpa using ‹needle.isPrefixOf []›
    · cases h
  | cons c rest ih =>
    intro pos i h
    rw [findIn] at h
    split at h
    · cases h
      simpa using ‹needle.isPrefixOf (c :: rest)›
    · obtain ⟨h1, h2, h3⟩ := ih (pos + 1) i h
      refine ⟨by omega, by simp; omega, ?_⟩
      have he : i - pos = (i - (pos + 1)) + 1 := by omega
      rw [he]
      simpa using h3

theorem findFrom_spec {hay needle : Str} {start i : Nat}
    (h : findFrom hay needle start = some i) :
    start ≤ i ∧ i + needle.length ≤ hay.length ∧ needle.isPrefixOf (hay.drop i) := by
  rw [findFrom] at h
  split at h
  · obtain ⟨h1, h2, h3⟩ := findIn_spec needle _ _ _ h
    rw [List.drop_drop] at h3
    have hs : start + (i - start) = i := by omega
    rw [hs] at h3
    have hlen : needle.length ≤ (hay.drop i).length :=
      (List.isPrefixOf_iff_prefix.mp h3).length_le
    simp only [List.length_drop] at h2 hlen
    exact ⟨h1, by omega, h3⟩
  · cases h

theorem findFrom_gt {hay needle : Str} {start : Nat} (h : hay.length < start) :
    findFrom hay needle start = none := by
  rw [findFrom, if_neg (by omega)]

theorem findAllAux_mem {hay needle : Str} :
    ∀ (fuel idx : Nat) (p : Nat × Nat), p ∈ findAllAux hay needle idx fuel →
      idx ≤ p.1 ∧ p.2 = needle.length ∧ p.1 + p.2 ≤ hay.length ∧
        needle.isPrefixOf (hay.drop p.1)
  | 0, idx, p, h => by simp [findAllAux] at h
  | fuel + 1, idx, p, h => by
    rw [findAllAux] at h
    split at h
    · simp at h
    · rename_i i hfind
      rcases List.mem_cons.mp h with rfl | h
      · obtain ⟨h1, h2, h3⟩ := findFrom_spec hfind
        exact ⟨h1, rfl, h2, h3⟩
      · obtain ⟨h1, h2, h3, h4⟩ := findAllAux_mem fuel (i + needle.length) p h
        have := (findFrom_spec hfind).1
        exact ⟨by omega, h2, h3, h4⟩

theorem findAllAux_pairwise {hay needle : Str} (hne : needle ≠ []) :
    ∀ (fuel idx : Nat),
      (findAllAux hay needle idx fuel).Pairwise (fun a b => a.1 < b.1 ∧ a.1 + a.2 ≤ b.1)
  | 0, idx => by simp [findAllAux]
  | fuel + 1, idx => by
    rw [findAllAux]
    split
    · simp
    · rename_i i hfind
      refine List.Pairwise.cons ?_ (findAllAux_pairwise hne fuel (i + needle.length))
      intro b hb
      have hmem := (findAllAux_mem fuel (i + needle.length) b hb).1
      have hpos : 0 < needle.length := List.length_pos.mpr hne
      exact ⟨by omega, by omega⟩

theorem findAllAux_stable {hay needle : Str} (hne : needle ≠ []) :
    ∀ (f₁ f₂ idx : Nat), hay.length + 1 ≤ idx + f₁ → hay.length + 1 ≤ idx + f₂ →
      findAllAux hay needle idx f₁ = findAllAux hay needle idx f₂
  | 0, f₂, idx, h₁, h₂ => by
    rw [findAllAux]
    cases f₂ with
    | zero => rw [findAllAux]
    | succ g => rw [findAllAux, findFrom_gt (by omega)]
  | f + 1, 0, idx, h₁, h₂ => by
    rw [findAllAux, findAllAux, findFrom_gt (by omega)]
  | f + 1, g + 1, idx, h₁, h₂ => by
    cases hfind : findFrom hay needle idx with
    | none => simp only [findAllAux, hfind]
    | some i =>
      obtain ⟨hi, hbound, -⟩ := findFrom_spec hfind
      have hpos : 0 < needle.length := List.length_pos.mpr hne
      simp only [findAllAux, hfind]
      rw [findAllAux_stable hne f g (i + needle.length) (by omega) (by omega)]

/-- Slices of the uppercased text are the uppercased slices of the text. -/
theorem upperStr_slice (text : Str) (a b : Nat) :
    upperStr (slice text a b) = slice (upperStr text) a b := by
  simp [upperStr, slice]

theorem prefix_drop_eq_slice {hay needle : Str} {i : Nat}
    (hpre : needle.isPrefixOf (hay.drop i)) :
    slice hay i (i + needle.length) = needle := by
  obtain ⟨t, ht⟩ := List.isPrefixOf_iff_prefix.mp hpre
  simp only [slice, Nat.add_sub_cancel_left]
  rw [← ht, List.take_left' rfl]

/-- C2.  For a non-empty term, every interval returned by `find_direct` has
length `len(term)`, is a valid offset range of the original text, and slices
the ORIGINAL text to the term up to case; the interval list is sorted by
strictly increasing start and pairwise non-overlapping (each start begins at
or after the previous interval's end). -/
theorem find_direct_spec (text term : Str) (hne : term ≠ []) :
    (∀ p ∈ find_direct text term,
        p.2 = term.length ∧ p.1 + p.2 ≤ text.length ∧
          upperStr (slice text p.1 (p.1 + p.2)) = upperStr term) ∧
    (find_direct text term).Pairwise (fun a b => a.1 < b.1 ∧ a.1 + a.2 ≤ b.1) := by
  constructor
  · intro p hp
    obtain ⟨-, h2, h3, h4⟩ := findAllAux_mem _ _ p hp
    have hlen : (upperStr term).length = term.length := by simp [upperStr]
    have hhay : (upperStr text).length = text.length := by simp [upperStr]
    refine ⟨h2.trans hlen, by omega, ?_⟩
    rw [upperStr_slice, h2]
    exact prefix_drop_eq_slice h4
  · exact findAllAux_pairwise (by simp [upperStr, hne]) _ _

/-- C2 witness. -/
theorem find_direct_spec_witness :
    (∀ p ∈ find_direct ['G', 'o', 'd', ' ', 'g', 'o', 'd'] ['g', 'O', 'd'],
        p.2 = (['g', 'O', 'd'] : Str).length ∧
          p.1 + p.2 ≤ (['G', 'o', 'd', ' ', 'g', 'o', 'd'] : Str).length ∧
          upperStr (slice ['G', 'o', 'd', ' ', 'g', 'o', 'd'] p.1 (p.1 + p.2)) =
            upperStr ['g', 'O', 'd']) ∧
    (find_direct ['G', 'o', 'd', ' ', 'g', 'o', 'd'] ['g', 'O', 'd']).Pairwise
      (fun a b => a.1 < b.1 ∧ a.1 + a.2 ≤ b.1) :=
  find_direct_spec ['G', 'o', 'd', ' ', 'g', 'o', 'd'] ['g', 'O', 'd'] (by decide)

/-- C3.  `find_reversed` is exactly the direct scan run with the reversed
term (reversing and uppercasing commute character-wise), and every returned
interval is an offset range of the forward text whose slice, uppercased,
equals the reversed uppercased term. -/
theorem find_reversed_spec (text term : Str) (hne : term ≠ []) :
    find_reversed text term = find_direct text term.reverse ∧
    ∀ p ∈ find_reversed text term,
      p.2 = term.length ∧ p.1 + p.2 ≤ text.length ∧
        upperStr (slice text p.1 (p.1 + p.2)) = (upperStr term).reverse := by
  have hrev : (upperStr term).reverse = upperStr term.reverse := by
    simp [upperStr]
  constructor
  · rw [find_reversed, find_direct, hrev]
  · intro p hp
    obtain ⟨-, h2, h3, h4⟩ := findAllAux_mem _ _ p hp
    have hlen : ((upperStr term).reverse).length = term.length := by simp [upperStr]
    have hhay : (upperStr text).length = text.length := by simp [upperStr]
    refine ⟨h2.trans hlen, by omega, ?_⟩
    rw [upperStr_slice, h2]
    exact prefix_drop_eq_slice h4

/-- C3 witness. -/
theorem find_reversed_spec_witness :
    find_reversed ['l', 'i', 'v', 'e', ' ', 'e', 'v', 'i', 'l'] ['l', 'i', 'v', 'e'] =
      find_direct ['l', 'i', 'v', 'e', ' ', 'e', 'v', 'i', 'l'] (['l', 'i', 'v', 'e'] : Str).reverse ∧
    ∀ p ∈ find_reversed ['l', 'i', 'v', 'e', ' ', 'e', 'v', 'i', 'l'] ['l', 'i', 'v', 'e'],
      p.2 = (['l', 'i', 'v', 'e'] : Str).length ∧
        p.1 + p.2 ≤ (['l', 'i', 'v', 'e', ' ', 'e', 'v', 'i', 'l'] : Str).length ∧
        upperStr (slice ['l', 'i', 'v', 'e', ' ', 'e', 'v', 'i', 'l'] p.1 (p.1 + p.2)) =
          (upperStr ['l', 'i', 'v', 'e']).reverse :=
  find_reversed_spec ['l', 'i', 'v', 'e', ' ', 'e', 'v', 'i', 'l'] ['l', 'i', 'v', 'e'] (by decide)

/-- C9.  Termination of the scan loops: for a non-empty term, `len(text) + 1`
iterations already reach the loop's fixed point for both `find_direct` and
`find_reversed` (each iteration advances the resume position by at least
`len(term)` ≥ 1, and at most `len(text) + 1` find calls can succeed or fail);
for an empty term, `text_u.find('', idx)` returns `idx` itself whenever
`idx ≤ len(text)`, and the resume position `idx + len('')` equals `idx`, so
the loop never advances and never terminates. -/
theorem scan_termination (text term : Str) :
    (term ≠ [] →
      ∀ fuel, text.length + 1 ≤ fuel →
        findAllAux (upperStr text) (upperStr term) 0 fuel = find_direct text term ∧
        findAllAux (upperStr text) ((upperStr term).reverse) 0 fuel =
          find_reversed text term) ∧
    (term = [] →
      ∀ idx, idx ≤ text.length →
        findFrom (upperStr text) (upperStr term) idx = some idx ∧
        idx + (upperStr term).length = idx) := by
  have hhay : (upperStr text).length = text.length := by simp [upperStr]
  constructor
  · intro hne fuel hfuel
    have h1 : upperStr term ≠ [] := by simp [upperStr, hne]
    have h2 : (upperStr term).reverse ≠ [] := by simp [upperStr, hne]
    exact ⟨findAllAux_stable h1 fuel (text.length + 1) 0 (by omega) (by omega),
           findAllAux_stable h2 fuel (text.length + 1) 0 (by omega) (by omega)⟩
  · intro hemp idx hidx
    subst hemp
    refine ⟨?_, by simp [upperStr]⟩
    rw [findFrom, if_pos (by omega)]
    cases hd : (upperStr text).drop idx with
    | nil => rw [findIn, if_pos (by simp [upperStr])]
    | cons c rest => rw [findIn, if_pos (by simp [upperStr, List.isPrefixOf])]

/-! ### Lemmas about the ELS matcher -/

theorem elsScanGo_mem {cu tu cl : Str} {skip : Nat} :
    ∀ (rem start : Nat) (r : ELSResult), r ∈ elsScanGo cu tu cl skip start rem →
      ∃ s, start ≤ s ∧
        (s : Int) + ((tu.length : Int) - 1) * (skip : Int) < (cu.length : Int) ∧
        elsSeq cu skip tu.length s = tu ∧
        r = ⟨skip, elsPositions skip tu.length s, cl⟩
  | 0, start, r, h => by simp [elsScanGo] at h
  | rem + 1, start, r, h => by
    rw [elsScanGo] at h
    split at h
    · simp at h
    · rename_i hlt
      split at h
      · rename_i hseq
        rcases List.mem_cons.mp h with rfl | h
        · exact ⟨start, le_refl _, by omega, hseq, rfl⟩
        · obtain ⟨s, h1, h2, h3, h4⟩ := elsScanGo_mem rem (start + 1) r h
          exact ⟨s, by omega, h2, h3, h4⟩
      · obtain ⟨s, h1, h2, h3, h4⟩ := elsScanGo_mem rem (start + 1) r h
        exact ⟨s, by omega, h2, h3, h4⟩

theorem elsPositions_headD {skip s len : Nat} (h : 0 < len) :
    (elsPositions skip len s).headD 0 = s := by
  cases len with
  | zero => omega
  | succ n =>
    rw [elsPositions, List.range_succ_eq_map]
    simp

theorem elsPositions_getD {skip s len : Nat} (i : Nat) (h : i < len) :
    (elsPositions skip len s).getD i 0 = s + i * skip := by
  simp [elsPositions, List.getD_eq_getElem?_getD, List.getElem?_range, h]

theorem elsScanGo_pairwise {cu tu cl : Str} {skip : Nat} (hne : tu ≠ []) :
    ∀ (rem start : Nat),
      (elsScanGo cu tu cl skip start rem).Pairwise
        (fun a b => a.positions.headD 0 < b.positions.headD 0)
  | 0, start => by simp [elsScanGo]
  | rem + 1, start => by
    rw [elsScanGo]
    split
    · simp
    · split
      · refine List.Pairwise.cons ?_ (elsScanGo_pairwise hne rem (start + 1))
        intro b hb
        obtain ⟨s, hs, -, -, rfl⟩ := elsScanGo_mem rem (start + 1) b hb
        have hpos : 0 < tu.length := List.length_pos.mpr hne
        simp only [elsPositions_headD hpos]
        omega
      · exact elsScanGo_pairwise hne rem (start + 1)

theorem getD_upperStr (cl : Str) (p : Nat) :
    (upperStr cl).getD p ' ' = Char.toUpper (cl.getD p ' ') := by
  rcases Nat.lt_or_ge p cl.length with h | h
  · simp [upperStr, List.getD_eq_getElem?_getD, List.getElem?_map,
      List.getElem?_eq_getElem h]
  · have h1 : cl.getD p ' ' = ' ' := by
      simp [List.getD_eq_getElem?_getD, List.getElem?_eq_none h]
    have h2 : (upperStr cl).getD p ' ' = ' ' := by
      have : (upperStr cl).length ≤ p := by simpa [upperStr] using h
      simp [List.getD_eq_getElem?_getD, List.getElem?_eq_none this]
    rw [h1, h2]
    decide

/-- Decomposition of membership in `find_els`. -/
theorem find_els_mem {text term : Str} {r : ELSResult} (hr : r ∈ find_els text term) :
    ∃ k < 50, ∃ s : Nat,
      (s : Int) + (((upperStr term).length : Int) - 1) * ((k + 1 : Nat) : Int) <
        ((upperStr (cleanedOf text)).length : Int) ∧
      elsSeq (upperStr (cleanedOf text)) (k + 1) (upperStr term).length s = upperStr term ∧
      r = ⟨k + 1, elsPositions (k + 1) (upperStr term).length s, cleanedOf text⟩ := by
  simp only [find_els, find_els_upto, List.mem_flatMap, List.mem_range] at hr
  obtain ⟨k, hk, hmem⟩ := hr
  obtain ⟨s, -, h2, h3, h4⟩ := elsScanGo_mem _ _ r hmem
  exact ⟨k, hk, s, h2, h3, h4⟩

/-- C1.  Every ELS result has a skip between 1 and the default bound 50, the
verse's letters-only string as its `cleaned` field, exactly `len(term)`
positions that increase by exactly `skip`, all positions (in particular the
final sampled index `start + (L-1)*skip`) strictly below `len(cleaned)`, and
the characters of `cleaned` at those positions, uppercased, spell the
uppercased term. -/
theorem els_result_spec (text term : Str) (r : ELSResult) (hr : r ∈ find_els text term) :
    1 ≤ r.skip ∧ r.skip ≤ 50 ∧ r.cleaned = cleanedOf text ∧
    r.positions.length = term.length ∧
    (∀ i, i + 1 < r.positions.length →
      r.positions.getD (i + 1) 0 = r.positions.getD i 0 + r.skip) ∧
    (∀ p ∈ r.positions, p < (cleanedOf text).length) ∧
    upperStr (r.positions.map (fun p => (cleanedOf text).getD p ' ')) = upperStr term := by
  obtain ⟨k, hk, s, hlt, hseq, rfl⟩ := find_els_mem hr
  have hlen : (upperStr term).length = term.length := by simp [upperStr]
  have hcu : (upperStr (cleanedOf text)).length = (cleanedOf text).length := by
    simp [upperStr]
  dsimp only
  refine ⟨by omega, by omega, rfl, by simp [elsPositions, hlen], ?_, ?_, ?_⟩
  · intro i hi
    simp only [elsPositions, List.length_map, List.length_range] at hi
    rw [elsPositions_getD (i + 1) hi, elsPositions_getD i (by omega)]
    simp [Nat.succ_mul]
    omega
  · intro p hp
    simp only [elsPositions, List.mem_map, List.mem_range] at hp
    obtain ⟨i, hi, rfl⟩ := hp
    have hL : 0 < (upperStr term).length := by omega
    have hsub : ((upperStr term).length : Int) - 1 =
        (((upperStr term).length - 1 : Nat) : Int) := by omega
    rw [hsub] at hlt
    have hlt' : s + ((upperStr term).length - 1) * (k + 1) < (cleanedOf text).length := by
      rw [← hcu]
      exact_mod_cast hlt
    have hmul : i * (k + 1) ≤ ((upperStr term).length - 1) * (k + 1) :=
      Nat.mul_le_mul_right _ (by omega)
    omega
  · have hmap : (elsPositions (k + 1) (upperStr term).length s).map
        (fun p => Char.toUpper ((cleanedOf text).getD p ' ')) =
        elsSeq (upperStr (cleanedOf text)) (k + 1) (upperStr term).length s := by
      simp only [elsPositions, elsSeq, List.map_map]
      refine List.map_congr_left ?_
      intro i hi
      simp only [Function.comp_apply]
      exact (getD_upperStr _ _).symm
    calc upperStr ((elsPositions (k + 1) (upperStr term).length s).map
            (fun p => (cleanedOf text).getD p ' '))
        = (elsPositions (k + 1) (upperStr term).length s).map
            (fun p => Char.toUpper ((cleanedOf text).getD p ' ')) := by
          simp [upperStr, List.map_map, Function.comp]
      _ = elsSeq (upperStr (cleanedOf text)) (k + 1) (upperStr term).length s := hmap
      _ = upperStr term := hseq

/-- C1 witness. -/
theorem els_result_spec_witness :
    1 ≤ (ELSResult.mk 2 [0, 2] ['a', 'b', 'c']).skip ∧
    (ELSResult.mk 2 [0, 2] ['a', 'b', 'c']).skip ≤ 50 ∧
    (ELSResult.mk 2 [0, 2] ['a', 'b', 'c']).cleaned = cleanedOf ['a', 'b', 'c'] ∧
    (ELSResult.mk 2 [0, 2] ['a', 'b', 'c']).positions.length = (['a', 'c'] : Str).length ∧
    (∀ i, i + 1 < (ELSResult.mk 2 [0, 2] ['a', 'b', 'c']).positions.length →
      (ELSResult.mk 2 [0, 2] ['a', 'b', 'c']).positions.getD (i + 1) 0 =
        (ELSResult.mk 2 [0, 2] ['a', 'b', 'c']).positions.getD i 0 +
          (ELSResult.mk 2 [0, 2] ['a', 'b', 'c']).skip) ∧
    (∀ p ∈ (ELSResult.mk 2 [0, 2] ['a', 'b', 'c']).positions,
      p < (cleanedOf ['a', 'b', 'c']).length) ∧
    upperStr ((ELSResult.mk 2 [0, 2] ['a', 'b', 'c']).positions.map
      (fun p => (cleanedOf ['a', 'b', 'c']).getD p ' ')) = upperStr ['a', 'c'] :=
  els_result_spec ['a', 'b', 'c'] ['a', 'c'] (ELSResult.mk 2 [0, 2] ['a', 'b', 'c'])
    (by decide)

/-- C7.  For a non-empty term, `find_els` returns its results ordered by
strictly increasing skip and, among equal skips, by strictly increasing start
index (the head of the positions list), i.e. the double-loop iteration order
(skip outer, start inner). -/
theorem find_els_order (text term : Str) (hne : term ≠ []) :
    (find_els text term).Pairwise
      (fun a b => a.skip < b.skip ∨
        (a.skip = b.skip ∧ a.positions.headD 0 < b.positions.headD 0)) := by
  have hne' : upperStr term ≠ [] := by simp [upperStr, hne]
  rw [find_els, find_els_upto]
  rw [List.pairwise_flatMap]
  constructor
  · intro k hk
    refine (elsScanGo_pairwise hne' _ _).imp_of_mem ?_
    intro a b ha hb hab
    obtain ⟨s, -, -, -, rfl⟩ := elsScanGo_mem _ _ a ha
    obtain ⟨s', -, -, -, rfl⟩ := elsScanGo_mem _ _ b hb
    exact Or.inr ⟨rfl, hab⟩
  · refine (List.pairwise_lt_range 50).imp ?_
    intro k k' hkk x hx y hy
    obtain ⟨s, -, -, -, rfl⟩ := elsScanGo_mem _ _ x hx
    obtain ⟨s', -, -, -, rfl⟩ := elsScanGo_mem _ _ y hy
    refine Or.inl ?_
    dsimp only
    omega

/-- C7 witness. -/
theorem find_els_order_witness :
    (find_els ['a', 'b', 'a'] ['a']).Pairwise
      (fun a b => a.skip < b.skip ∨
        (a.skip = b.skip ∧ a.positions.headD 0 < b.positions.headD 0)) :=
  find_els_order ['a', 'b', 'a'] ['a'] (by decide)

/-! ### Lemmas about the verse parser -/

theorem load_bible_loop_eq (lines : List Str) :
    ∀ acc, load_bible_loop acc lines = acc ++ lines.filterMap parseLine := by
  induction lines with
  | nil => intro acc; simp [load_bible_loop]
  | cons l rest ih =>
    intro acc
    rw [load_bible_loop]
    cases hp : parseLine l with
    | none => simp [List.filterMap_cons, hp, ih]
    | some v => simp [List.filterMap_cons, hp, ih]

theorem load_bible_eq_filterMap (lines : List Str) :
    load_bible lines = lines.filterMap parseLine := by
  simpa using load_bible_loop_eq lines []

theorem parseTail_digits {s ch vs tx : Str} (h : parseTail s = some (ch, vs, tx)) :
    ch ≠ [] ∧ (∀ c ∈ ch, isDigitC c = true) ∧
    vs ≠ [] ∧ (∀ c ∈ vs, isDigitC c = true) := by
  simp only [parseTail] at h
  split at h
  · cases h
  · split at h
    · cases h
    · split at h
      · split at h
        · cases h
        · split at h
          · cases h
          · rename_i s3 hvs hsp2
            injection h with h'
            injection h' with h1 h'
            injection h' with h2 h3
            subst h1; subst h2
            refine ⟨by assumption, fun c hc => List.mem_takeWhile_imp hc,
                    hvs, fun c hc => List.mem_takeWhile_imp hc⟩
      · cases h

theorem parseBookFrom_digits {pre s : Str} {v : Verse} (h : parseBookFrom pre s = some v) :
    v.chapter ≠ [] ∧ (∀ c ∈ v.chapter, isDigitC c = true) ∧
    v.verse ≠ [] ∧ (∀ c ∈ v.verse, isDigitC c = true) := by
  simp only [parseBookFrom] at h
  split at h
  · cases h
  · split at h
    · rename_i ch vs tx hpt
      cases h
      simpa using parseTail_digits hpt
    · cases h

theorem parseLine_digits {line : Str} {v : Verse} (h : parseLine line = some v) :
    v.chapter ≠ [] ∧ (∀ c ∈ v.chapter, isDigitC c = true) ∧
    v.verse ≠ [] ∧ (∀ c ∈ v.verse, isDigitC c = true) := by
  rw [parseLine.eq_def] at h
  split at h
  · cases h
  · split at h
    · split at h
      · rename_i v' hbf
        cases h
        exact parseBookFrom_digits hbf
      · exact parseBookFrom_digits h
    · exact parseBookFrom_digits h

/-- C5.  `load_bible` is an order-preserving per-line filter: it is exactly
`filterMap parseLine` (one Verse per grammar-matching line, in input order,
no deduplication), it is a homomorphism for concatenation of line lists, a
line rejected by the grammar is silently skipped (contributes nothing, and
the model has no error/warning channel at all), and a matching line
contributes exactly its one parsed verse. -/
theorem load_bible_spec :
    (∀ lines, load_bible lines = lines.filterMap parseLine) ∧
    (∀ l₁ l₂, load_bible (l₁ ++ l₂) = load_bible l₁ ++ load_bible l₂) ∧
    (∀ line, parseLine line = none → load_bible [line] = []) ∧
    (∀ line v, parseLine line = some v → load_bible [line] = [v]) := by
  refine ⟨load_bible_eq_filterMap, ?_, ?_, ?_⟩
  · intro l₁ l₂
    rw [load_bible_eq_filterMap, load_bible_eq_filterMap, load_bible_eq_filterMap,
      List.filterMap_append]
  · intro line hline
    rw [load_bible_eq_filterMap]
    simp [List.filterMap_cons, hline]
  · intro line v hline
    rw [load_bible_eq_filterMap]
    simp [List.filterMap_cons, hline]

/-- C5 witness: a malformed line produces no verse and no failure; a
grammar-matching line produces exactly one verse. -/
theorem load_bible_spec_witness :
    load_bible [['?', '?']] = [] ∧
    load_bible [['B', ' ', '2', ':', '3', ' ', 'x']] =
      [⟨['B'], ['2'], ['3'], ['x']⟩] :=
  ⟨load_bible_spec.2.2.1 ['?', '?'] (by decide),
   load_bible_spec.2.2.2 ['B', ' ', '2', ':', '3', ' ', 'x'] ⟨['B'], ['2'], ['3'], ['x']⟩
     (by decide)⟩

/-- C6 (amended).  Every Verse produced by the parser has a chapter and a
verse number that are non-empty strings of decimal digits — hence nonnegative
integers; positivity is NOT guaranteed (see the counterexample). -/
theorem chapter_verse_digits (lines : List Str) (v : Verse) (hv : v ∈ load_bible lines) :
    v.chapter ≠ [] ∧ (∀ c ∈ v.chapter, isDigitC c = true) ∧
    v.verse ≠ [] ∧ (∀ c ∈ v.verse, isDigitC c = true) := by
  rw [load_bible_eq_filterMap] at hv
  obtain ⟨line, -, hp⟩ := List.mem_filterMap.mp hv
  exact parseLine_digits hp

/-- C6 witness for the amended claim. -/
theorem chapter_verse_digits_witness :
    (⟨['B'], ['0'], ['7'], ['x']⟩ : Verse).chapter ≠ [] ∧
    (∀ c ∈ (⟨['B'], ['0'], ['7'], ['x']⟩ : Verse).chapter, isDigitC c = true) ∧
    (⟨['B'], ['0'], ['7'], ['x']⟩ : Verse).verse ≠ [] ∧
    (∀ c ∈ (⟨['B'], ['0'], ['7'], ['x']⟩ : Verse).verse, isDigitC c = true) :=
  chapter_verse_digits [['B', ' ', '0', ':', '7', ' ', 'x']]
    ⟨['B'], ['0'], ['7'], ['x']⟩ (by decide)

/-- C6 counterexample: the line `"Genesis 0:0 x"` matches the grammar (`\d+`
accepts `0`), so the parser emits a verse whose chapter and verse numbers are
both 0 — not positive integers as the claim states. -/
theorem chapter_positive_cex :
    ∃ v ∈ load_bible [['G', 'e', 'n', 'e', 's', 'i', 's', ' ', '0', ':', '0', ' ', 'x']],
      natOfDigits v.chapter = 0 ∧ natOfDigits v.verse = 0 := by
  decide

/-! ### Lemmas about the report assembler -/

theorem sum_length_eq_filter {α β : Type} (l : List α) (g : α → List β) :
    (l.map (fun v => (g v).length)).sum =
      ((l.filter (fun v => !(g v).isEmpty)).map (fun v => (g v).length)).sum := by
  induction l with
  | nil => simp
  | cons a t ih =>
    by_cases h : (g a).isEmpty
    · have h0 : (g a).length = 0 := by
        rw [List.isEmpty_iff] at h
        simp [h]
      simp [List.filter_cons, h, h0, ih]
    · simp [List.filter_cons, h, ih]

theorem flatMap_pairs_length {α β : Type} (l : List α) (f g : α → β) :
    (l.flatMap (fun m => [f m, g m])).length = 2 * l.length := by
  induction l with
  | nil => simp
  | cons a t ih => simp [ih]; omega

/-- C8.  The three counts interpolated into the navigation header are the
direct-match, reversed-match and ELS-result totals over all verses, and each
equals the number of matches rendered in its section: for the Conventional
and Reversed sections, the per-verse matches rendered are exactly those of
the verses with a non-empty match list (verses without matches are skipped
and contribute zero); the ELS section renders one two-line subsection per
ELS result, so its line count is exactly twice the ELS total. -/
theorem nav_counts (verses : List Verse) (term : Str) :
    direct_count verses term =
      ((verses.filter (fun v => !(find_direct v.text term).isEmpty)).map
        (fun v => (find_direct v.text term).length)).sum ∧
    reverse_count verses term =
      ((verses.filter (fun v => !(find_reversed v.text term).isEmpty)).map
        (fun v => (find_reversed v.text term).length)).sum ∧
    els_count verses term =
      ((verses.filter (fun v => !(find_els v.text term).isEmpty)).map
        (fun v => (find_els v.text term).length)).sum ∧
    (verses.flatMap (convBlock term)).length =
      2 * (verses.filter (fun v => !(find_direct v.text term).isEmpty)).length ∧
    (verses.flatMap (revBlock term)).length =
      2 * (verses.filter (fun v => !(find_reversed v.text term).isEmpty)).length ∧
    (verses.flatMap (elsBlock term)).length = 2 * els_count verses term := by
  refine ⟨sum_length_eq_filter verses _, sum_length_eq_filter verses _,
    sum_length_eq_filter verses _, ?_, ?_, ?_⟩
  · induction verses with
    | nil => simp
    | cons a t ih =>
      by_cases h : find_direct a.text term = []
      · simp [convBlock, List.filter_cons, h, ih]
      · simp [convBlock, List.filter_cons, h, ih]
        omega
  · induction verses with
    | nil => simp
    | cons a t ih =>
      by_cases h : find_reversed a.text term = []
      · simp [revBlock, List.filter_cons, h, ih]
      · simp [revBlock, List.filter_cons, h, ih]
        omega
  · induction verses with
    | nil => simp [els_count]
    | cons a t ih =>
      simp only [List.flatMap_cons, List.length_append, ih, els_count, List.map_cons,
        List.sum_cons, elsBlock, flatMap_pairs_length]
      ring

/-- C10.  `generate_html` escapes only the verse text (through
`highlight_text`): the `<title>` line and the `<h1>` heading interpolate the
search term verbatim (no entity escaping), and each section's `<h3>` location
heading interpolates `book chapter:verse` verbatim, so any `&`, `<` or `>` in
the term or book name reaches the markup unchanged. -/
theorem raw_interpolation (verses : List Verse) (term : Str) :
    (generate_html_lines verses term).getD 4 [] =
      "  <title>Yada Bible Word Search Report for \"".toList ++ term ++
        "\"</title>".toList ∧
    (generate_html_lines verses term).getD 16 [] =
      "<h1>Search Term: ".toList ++ term ++ "</h1>".toList ∧
    (∀ v ∈ verses, find_direct v.text term ≠ [] →
      ("<h3>".toList ++ locOf v ++ "</h3>".toList) ∈ generate_html_lines verses term) ∧
    (∀ v ∈ verses, ∀ r ∈ find_els v.text term,
      ("<h3>".toList ++ locOf v ++ " (skip=".toList ++ natStr r.skip ++ ")</h3>".toList) ∈
        generate_html_lines verses term) := by
  refine ⟨rfl, rfl, ?_, ?_⟩
  · intro v hv hne
    have hc : ("<h3>".toList ++ locOf v ++ "</h3>".toList) ∈
        verses.flatMap (convBlock term) :=
      List.mem_flatMap.mpr ⟨v, hv, by simp [convBlock, hne]⟩
    simp only [generate_html_lines, List.append_assoc, List.mem_append]
    exact Or.inr (Or.inl hc)
  · intro v hv r hr
    have he : ("<h3>".toList ++ locOf v ++ " (skip=".toList ++ natStr r.skip ++
        ")</h3>".toList) ∈ verses.flatMap (elsBlock term) :=
      List.mem_flatMap.mpr ⟨v, hv, List.mem_flatMap.mpr ⟨r, hr, by simp [List.append_assoc]⟩⟩
    simp only [List.append_assoc] at he
    simp only [generate_html_lines, List.append_assoc, List.mem_append]
    exact Or.inr (Or.inr (Or.inr (Or.inr (Or.inr (Or.inl he)))))

/-- C10 witness. -/
theorem raw_interpolation_witness :
    ("<h3>".toList ++ locOf ⟨['B', '<'], ['1'], ['2'], ['x', '&', 'y']⟩ ++ "</h3>".toList) ∈
      generate_html_lines [⟨['B', '<'], ['1'], ['2'], ['x', '&', 'y']⟩] ['x'] :=
  (raw_interpolation [⟨['B', '<'], ['1'], ['2'], ['x', '&', 'y']⟩] ['x']).2.2.1
    ⟨['B', '<'], ['1'], ['2'], ['x', '&', 'y']⟩ (by decide) (by decide)

/-- C9 witness. -/
theorem scan_termination_witness :
    findAllAux (upperStr ['a', 'b', 'a']) (upperStr ['a']) 0 9 =
      find_direct ['a', 'b', 'a'] ['a'] ∧
    findFrom (upperStr ['a', 'b', 'a']) (upperStr ([] : Str)) 2 = some 2 :=
  ⟨((scan_termination ['a', 'b', 'a'] ['a']).1 (by decide) 9 (by decide)).1,
   ((scan_termination ['a', 'b', 'a'] []).2 rfl 2 (by decide)).1⟩

end Yada
